import Mathlib

/-!
Shallow embedding of the CC accounting and group-decision core of the
chas-backend repository (src/app/services), together with proofs of the
spec claims about it.

Conventions of the embedding:
* a balance row of the cc_balances table is a `Balance` record of integers
  (Python ints are unbounded, so `Int` is exact);
* the store is modelled by passing the touched rows explicitly; an operation
  that raises before reaching `db.update` returns the rows unchanged;
* error classes of app/utils/errors.py become inductive values carrying the
  same payload.
-/

namespace Chas

/-- A cc_balances row (the fields the services read and write). -/
structure Balance where
  daily_budget : Int
  spent_today : Int
  remaining : Int
  debt : Int
  deriving Repr, DecidableEq

/-- Payload of InsufficientCCError(required, available). -/
structure InsufficientCC where
  required : Int
  available : Int
  deriving Repr, DecidableEq

/-- CCService.spend_cc: the first component is the cc_balances row after the
call (an InsufficientCCError is raised before any `db.update`, so the row is
unchanged on failure); the second is the returned balance or the error. -/
def spend_cc (b : Balance) (amount : Int) : Balance × Except InsufficientCC Balance :=
  if b.remaining < amount then
    (b, .error { required := amount, available := b.remaining })
  else
    let b' : Balance :=
      { b with spent_today := b.spent_today + amount, remaining := b.remaining - amount }
    (b', .ok b')

/-- CCService.transfer for two distinct rows (lender, borrower): first
component is the pair of rows after the call, second the returned pair or the
error raised before any update. -/
def transfer (lender borrower : Balance) (amount : Int) :
    (Balance × Balance) × Except InsufficientCC (Balance × Balance) :=
  if lender.remaining < amount then
    ((lender, borrower), .error { required := amount, available := lender.remaining })
  else
    let lender' : Balance :=
      { lender with remaining := lender.remaining - amount,
                    spent_today := lender.spent_today + amount }
    let borrower' : Balance :=
      { borrower with remaining := borrower.remaining + amount,
                      debt := borrower.debt + amount }
    ((lender', borrower'), .ok (lender', borrower'))

/-- CCService.refund_tip_to_tip. -/
def refund_tip_to_tip (b : Balance) (amount : Int) : Balance :=
  { b with remaining := b.remaining + amount,
           spent_today := max 0 (b.spent_today - amount) }

/-- CCService.reset_balance_with_debt (the last_reset timestamp column is not
modelled; it carries no accounting content). -/
def reset_balance_with_debt (b : Balance) : Balance :=
  if b.debt > 0 then
    let repayment := min b.daily_budget b.debt
    { b with debt := b.debt - repayment,
             remaining := b.daily_budget - repayment,
             spent_today := repayment }
  else
    { b with remaining := b.daily_budget, spent_today := 0 }

end Chas

namespace Chas

/-- One tip_to_tip_votes row: voter id and the raw vote string. -/
structure TTVote where
  user_id : String
  vote : String
  deriving Repr, DecidableEq

/-- The slice of store state TipToTipService.vote and _resolve_if_complete
read and write: the proposal row (status, stake_amount, deadline), its vote
rows in created_at order, the community_members user ids, the proposer's
balance row, and the signed amounts of the appended ledger entries. -/
structure TTState where
  status : String
  stake_amount : Int
  deadline : Int
  votes : List TTVote
  members : List String
  proposerBalance : Balance
  ledger : List Int
  deriving Repr, DecidableEq

/-- TipToTipService._resolve_if_complete. total_members is the size of the
set of member user ids; the status updates are `db.update` calls filtered on
the proposal id ONLY (not on the current status), so they apply whatever the
status already is, and the function itself never inspects the status. -/
def resolve_if_complete (s : TTState) : TTState × Bool × Option String :=
  let total_members := s.members.dedup.length
  if s.votes.length < total_members then
    (s, false, none)
  else if s.votes.any (fun v => v.vote == "decline") then
    ({ s with status := "expired" }, true, some "expired")
  else
    ({ s with status := "completed",
              proposerBalance := refund_tip_to_tip s.proposerBalance s.stake_amount,
              ledger := s.ledger ++ [s.stake_amount] },
     true, some "completed")

/-- Errors TipToTipService.vote raises: ConflictError PROPOSAL_EXPIRED for an
inactive proposal, ConflictError PROPOSAL_EXPIRED for a passed deadline,
ForbiddenError for a non-member, ConflictError ALREADY_VOTED for a duplicate
vote (pre-check or store uniqueness violation). -/
inductive TTVoteError where
  | notActive
  | deadlinePassed
  | notMember
  | alreadyVoted
  deriving Repr, DecidableEq

/-- TipToTipService.vote. `now` is the instant now_utc() returns;
`insertRaisesUnique` models the store raising a uniqueness-constraint
violation at insert time (a concurrent duplicate vote that the pre-check did
not see), which the except-branch converts to the same ALREADY_VOTED
conflict. Returns the post-call store state and either the error or the
(resolved, outcome) pair. The vote string is inserted as given, with no
validation of its value. -/
def tt_vote (now : Int) (insertRaisesUnique : Bool) (s : TTState)
    (voter v : String) : TTState × Except TTVoteError (Bool × Option String) :=
  if s.status ≠ "active" then (s, .error .notActive)
  else if s.deadline < now then
    ({ s with status := "expired" }, .error .deadlinePassed)
  else if ¬ s.members.contains voter then (s, .error .notMember)
  else if s.votes.any (fun w => w.user_id == voter) then (s, .error .alreadyVoted)
  else if insertRaisesUnique then (s, .error .alreadyVoted)
  else
    let s1 : TTState := { s with votes := s.votes ++ [⟨voter, v⟩] }
    let r := resolve_if_complete s1
    (r.1, .ok r.2)

/-- Errors ElectionService.vote raises, in the order the code checks them. -/
inductive ElVoteError where
  | forbidden
  | electionClosed
  | candidateNotFound
  | alreadyVoted
  deriving Repr, DecidableEq

/-- The slice of store state ElectionService.vote touches: the election row's
status and the election_votes rows (voter_id, candidate_id) in created_at
order. -/
structure ElState where
  status : String
  votes : List (String × String)
  deriving Repr, DecidableEq

/-- ElectionService.vote. `actorRoles` are the actor's community_members
roles, `candidates` the user ids of the candidate set computed by
_candidate_members, and `insertRaisesUnique` models a uniqueness-constraint
violation from the store at insert time, converted to ALREADY_VOTED. -/
def el_vote (insertRaisesUnique : Bool) (actorRoles candidates : List String)
    (s : ElState) (actor candidate : String) : Except ElVoteError ElState :=
  if ¬ (actorRoles.contains "council" ∨ actorRoles.contains "moderator") then
    .error .forbidden
  else if s.status ≠ "active" then .error .electionClosed
  else if ¬ candidates.contains candidate then .error .candidateNotFound
  else if s.votes.any (fun w => w.1 == actor) then .error .alreadyVoted
  else if insertRaisesUnique then .error .alreadyVoted
  else .ok { s with votes := s.votes ++ [(actor, candidate)] }

/-- The store state a losing concurrent resolver observes: a 3-member
proposal whose full all-accept vote set is in, but whose resolution (status
to completed, stake 100 refunded, positive ledger entry) was already
performed by the winning resolver. -/
def ttAfterFirstResolution : TTState :=
  { status := "completed",
    stake_amount := 100,
    deadline := 0,
    votes := [⟨"p", "accept"⟩, ⟨"a", "accept"⟩, ⟨"b", "accept"⟩],
    members := ["p", "a", "b"],
    proposerBalance := { daily_budget := 100, spent_today := 0, remaining := 100, debt := 0 },
    ledger := [-100, 100] }

/-- C2: spend fails with InsufficientFunds(required, available) iff remaining
is strictly below the amount, leaving the row unmodified; on success it sets
remaining to remaining - amount and spent_today to spent_today + amount, so a
successful spend never leaves remaining negative. -/
theorem spend_cc_spec (b : Balance) (amount : Int) :
    ((spend_cc b amount).2 = .error ⟨amount, b.remaining⟩ ↔ b.remaining < amount) ∧
    (b.remaining < amount → (spend_cc b amount).1 = b) ∧
    (∀ b', (spend_cc b amount).2 = .ok b' →
      b'.remaining = b.remaining - amount ∧
      b'.spent_today = b.spent_today + amount ∧
      b'.daily_budget = b.daily_budget ∧
      b'.debt = b.debt ∧
      0 ≤ b'.remaining) := by
  unfold spend_cc
  by_cases h : b.remaining < amount
  · simp [h]
  · refine ⟨?_, ?_, ?_⟩
    · simp [h]
    · intro hc; exact absurd hc h
    · intro b' hb'
      simp only [h, if_false] at hb'
      cases hb'
      refine ⟨rfl, rfl, rfl, rfl, ?_⟩
      simp only []
      omega

/-- C2 witness: a concrete spend of 30 against remaining 100. -/
theorem spend_cc_spec_witness :
    (spend_cc ⟨100, 0, 100, 0⟩ 30).2 = .ok ⟨100, 30, 70, 0⟩ ∧
    (70 : Int) = 100 - 30 ∧ (30 : Int) = 0 + 30 ∧ (0 : Int) ≤ 70 := by
  have h := (spend_cc_spec ⟨100, 0, 100, 0⟩ 30).2.2 ⟨100, 30, 70, 0⟩ rfl
  exact ⟨rfl, h.1, h.2.1, h.2.2.2.2⟩

/-- C4: a transfer fails with InsufficientFunds when the lender's remaining is
strictly below the amount, leaving both rows unmodified; on success the
lender's remaining drops by the amount and spent_today rises by it, the
borrower's remaining and debt rise by it, the lender's debt is unchanged, and
the sum of the two remainings is conserved. -/
theorem transfer_spec (lender borrower : Balance) (amount : Int) :
    (lender.remaining < amount →
      transfer lender borrower amount =
        ((lender, borrower), .error ⟨amount, lender.remaining⟩)) ∧
    (∀ l' b', (transfer lender borrower amount).2 = .ok (l', b') →
      l'.remaining = lender.remaining - amount ∧
      l'.spent_today = lender.spent_today + amount ∧
      l'.debt = lender.debt ∧
      b'.remaining = borrower.remaining + amount ∧
      b'.debt = borrower.debt + amount ∧
      b'.spent_today = borrower.spent_today ∧
      l'.remaining + b'.remaining = lender.remaining + borrower.remaining) ∧
    ((∃ e, (transfer lender borrower amount).2 = .error e) ↔
      lender.remaining < amount) := by
  unfold transfer
  by_cases h : lender.remaining < amount
  · simp [h]
  · refine ⟨fun hc => absurd hc h, ?_, ?_⟩
    · intro l' b' hok
      simp only [h, if_false] at hok
      cases hok
      refine ⟨rfl, rfl, rfl, rfl, rfl, rfl, ?_⟩
      simp only []
      ring
    · simp [h]

/-- C4 witness: transferring 40 from a lender with remaining 100 to a borrower
with remaining 10 and debt 0. -/
theorem transfer_spec_witness :
    (transfer ⟨100, 0, 100, 0⟩ ⟨100, 0, 10, 0⟩ 40).2 =
      .ok (⟨100, 40, 60, 0⟩, ⟨100, 0, 50, 40⟩) ∧
    (60 : Int) + 50 = 100 + 10 := by
  have h := (transfer_spec ⟨100, 0, 100, 0⟩ ⟨100, 0, 10, 0⟩ 40).2.1
      ⟨100, 40, 60, 0⟩ ⟨100, 0, 50, 40⟩ rfl
  exact ⟨rfl, h.2.2.2.2.2.2⟩

/-- C5: reset_balance_with_debt repays min(daily_budget, debt) out of the new
allocation when debt is positive, and otherwise restores the full allocation;
in particular (debt=30, budget=100) yields (debt=0, remaining=70,
spent_today=30) and (debt=150, budget=100) yields (debt=50, remaining=0,
spent_today=100). -/
theorem reset_balance_with_debt_spec (b : Balance) :
    (0 < b.debt → reset_balance_with_debt b =
      { b with debt := b.debt - min b.daily_budget b.debt,
               remaining := b.daily_budget - min b.daily_budget b.debt,
               spent_today := min b.daily_budget b.debt }) ∧
    (b.debt = 0 → reset_balance_with_debt b =
      { b with remaining := b.daily_budget, spent_today := 0 }) ∧
    reset_balance_with_debt ⟨100, 55, 45, 30⟩ = ⟨100, 30, 70, 0⟩ ∧
    reset_balance_with_debt ⟨100, 55, 45, 150⟩ = ⟨100, 100, 0, 50⟩ := by
  refine ⟨?_, ?_, by decide, by decide⟩
  · intro h
    unfold reset_balance_with_debt
    simp [h]
  · intro h
    unfold reset_balance_with_debt
    simp [h]

/-- C5 witness: the positive-debt branch applied at debt 30, budget 100. -/
theorem reset_balance_with_debt_spec_witness :
    reset_balance_with_debt ⟨100, 55, 45, 30⟩ =
      { Balance.mk 100 55 45 30 with
          debt := 30 - min 100 30,
          remaining := 100 - min 100 30,
          spent_today := min 100 30 } :=
  (reset_balance_with_debt_spec ⟨100, 55, 45, 30⟩).1 (by decide)

/-- C1: with fewer votes than community members, resolution changes nothing;
with the full vote set, any decline expires the proposal with balance and
ledger untouched, while an all-accept set completes it, refunds the stake to
the proposer (remaining + stake, spent_today clamped at 0) and appends one
ledger entry of the stake amount. -/
theorem resolve_if_complete_spec (s : TTState) (_hact : s.status = "active") :
    (s.votes.length < s.members.dedup.length →
      resolve_if_complete s = (s, false, none)) ∧
    (s.members.dedup.length ≤ s.votes.length →
      (∃ v ∈ s.votes, v.vote = "decline") →
      resolve_if_complete s = ({ s with status := "expired" }, true, some "expired")) ∧
    (s.members.dedup.length ≤ s.votes.length →
      (∀ v ∈ s.votes, v.vote = "accept") →
      (resolve_if_complete s).1.status = "completed" ∧
      (resolve_if_complete s).1.proposerBalance.remaining
        = s.proposerBalance.remaining + s.stake_amount ∧
      (resolve_if_complete s).1.proposerBalance.spent_today
        = max 0 (s.proposerBalance.spent_today - s.stake_amount) ∧
      (resolve_if_complete s).1.ledger = s.ledger ++ [s.stake_amount] ∧
      (resolve_if_complete s).2 = (true, some "completed")) := by
  refine ⟨?_, ?_, ?_⟩
  · intro hlt
    unfold resolve_if_complete
    rw [if_pos hlt]
  · intro hfull hdecl
    have hany : (s.votes.any (fun v => v.vote == "decline")) = true := by
      rw [List.any_eq_true]
      obtain ⟨v, hv, hve⟩ := hdecl
      exact ⟨v, hv, by simp [hve]⟩
    unfold resolve_if_complete
    rw [if_neg (not_lt.mpr hfull), if_pos hany]
  · intro hfull hacc
    have hany : (s.votes.any (fun v => v.vote == "decline")) = false := by
      rw [List.any_eq_false]
      intro v hv
      simp [hacc v hv]
    unfold resolve_if_complete
    rw [if_neg (not_lt.mpr hfull), if_neg (by simp [hany])]
    exact ⟨rfl, rfl, rfl, rfl, rfl⟩

/-- A concrete active 3-member proposal with its full all-accept vote set. -/
def ttActiveFullAccept : TTState :=
  { status := "active",
    stake_amount := 100,
    deadline := 10,
    votes := [⟨"p", "accept"⟩, ⟨"a", "accept"⟩, ⟨"b", "accept"⟩],
    members := ["p", "a", "b"],
    proposerBalance := { daily_budget := 100, spent_today := 100, remaining := 0, debt := 0 },
    ledger := [-100] }

/-- C1 witness: resolving the concrete all-accept proposal completes it and
refunds the 100-CC stake. -/
theorem resolve_if_complete_spec_witness :
    (resolve_if_complete ttActiveFullAccept).1.status = "completed" ∧
    (resolve_if_complete ttActiveFullAccept).1.proposerBalance.remaining = 0 + 100 ∧
    (resolve_if_complete ttActiveFullAccept).1.proposerBalance.spent_today
      = max 0 (100 - 100) ∧
    (resolve_if_complete ttActiveFullAccept).1.ledger = [-100] ++ [100] ∧
    (resolve_if_complete ttActiveFullAccept).2 = (true, some "completed") :=
  (resolve_if_complete_spec ttActiveFullAccept rfl).2.2 (by decide) (by decide)

/-- C3: contrary to the claim, the status-transition writes of
_resolve_if_complete are `db.update` calls filtered on the proposal id only,
with no status = active condition, and the function never inspects the
current status; a losing concurrent resolver invoked on the already-completed
state therefore refunds the stake and appends a ledger entry a second time
instead of no-opping. -/
theorem resolve_if_complete_not_status_guarded :
    ttAfterFirstResolution.status = "completed" ∧
    (resolve_if_complete ttAfterFirstResolution).2 = (true, some "completed") ∧
    (resolve_if_complete ttAfterFirstResolution).1.proposerBalance.remaining = 200 ∧
    (resolve_if_complete ttAfterFirstResolution).1.ledger = [-100, 100, 100] :=
  ⟨rfl, rfl, by decide, by decide⟩

/-- C6: voting on an inactive proposal fails with the not-active conflict; a
passed deadline fails and flips the status to expired; with an active,
in-deadline proposal a duplicate vote by the same user always fails with
ALREADY_VOTED, whether the pre-check sees the existing row or the store
raises a uniqueness violation at insert; the election vote behaves the same
way on duplicates. -/
theorem vote_error_spec (now : Int) (race : Bool) (s : TTState) (voter v : String)
    (es : ElState) (roles cands : List String) (actor cand : String) :
    (s.status ≠ "active" → tt_vote now race s voter v = (s, .error .notActive)) ∧
    (s.status = "active" → s.deadline < now →
      tt_vote now race s voter v = ({ s with status := "expired" }, .error .deadlinePassed)) ∧
    (s.status = "active" → now ≤ s.deadline → s.members.contains voter = true →
      ((s.votes.any (fun w => w.user_id == voter)) = true ∨ race = true) →
      tt_vote now race s voter v = (s, .error .alreadyVoted)) ∧
    ((roles.contains "council" = true ∨ roles.contains "moderator" = true) →
      es.status = "active" → cands.contains cand = true →
      ((es.votes.any (fun w => w.1 == actor)) = true ∨ race = true) →
      el_vote race roles cands es actor cand = .error .alreadyVoted) := by
  refine ⟨?_, ?_, ?_, ?_⟩
  · intro h
    unfold tt_vote
    rw [if_pos h]
  · intro h1 h2
    unfold tt_vote
    rw [if_neg (by simp [h1]), if_pos h2]
  · intro h1 h2 h3 h4
    unfold tt_vote
    rw [if_neg (not_not_intro h1), if_neg (not_lt.mpr h2), if_neg (not_not_intro h3)]
    by_cases hpre : (s.votes.any (fun w => w.user_id == voter)) = true
    · rw [if_pos hpre]
    · rcases h4 with h4 | h4
      · exact absurd h4 hpre
      · rw [if_neg hpre, if_pos h4]
  · intro h1 h2 h3 h4
    unfold el_vote
    rw [if_neg (not_not_intro h1), if_neg (by simp [h2]), if_neg (not_not_intro h3)]
    by_cases hpre : (es.votes.any (fun w => w.1 == actor)) = true
    · rw [if_pos hpre]
    · rcases h4 with h4 | h4
      · exact absurd h4 hpre
      · rw [if_neg hpre, if_pos h4]

/-- A concrete active proposal on which voter a already has a vote row. -/
def ttActivePartial : TTState :=
  { status := "active",
    stake_amount := 100,
    deadline := 10,
    votes := [⟨"p", "accept"⟩, ⟨"a", "accept"⟩],
    members := ["p", "a", "b"],
    proposerBalance := { daily_budget := 100, spent_today := 100, remaining := 0, debt := 0 },
    ledger := [-100] }

/-- C6 witness: voter a re-voting on the concrete proposal at time 5 hits
ALREADY_VOTED through the pre-check, and a council voter re-voting in a
concrete election hits ALREADY_VOTED through a simulated store race. -/
theorem vote_error_spec_witness :
    tt_vote 5 false ttActivePartial "a" "accept" =
      (ttActivePartial, .error .alreadyVoted) ∧
    el_vote true ["council"] ["x", "y"]
      { status := "active", votes := [] } "w" "x" = .error .alreadyVoted := by
  refine ⟨?_, ?_⟩
  · exact (vote_error_spec 5 false ttActivePartial "a" "accept"
      { status := "active", votes := [] } ["council"] ["x", "y"] "w" "x").2.2.1
      rfl (by decide) (by decide) (Or.inl (by decide))
  · exact (vote_error_spec 5 true ttActivePartial "a" "accept"
      { status := "active", votes := [] } ["council"] ["x", "y"] "w" "x").2.2.2
      (Or.inl (by decide)) rfl (by decide) (Or.inr rfl)

/-- C10: once every member has voted, resolution only looks for the literal
string "decline": when no vote row equals "decline" the proposal completes
and the stake is refunded, whatever the other vote strings are, and tt_vote
inserts the raw vote string without validating it against accept/decline. -/
theorem resolve_unanimity_is_absence_of_decline (s : TTState)
    (hfull : s.members.dedup.length ≤ s.votes.length)
    (hnod : ∀ v ∈ s.votes, v.vote ≠ "decline") :
    ((resolve_if_complete s).1.status = "completed" ∧
      (resolve_if_complete s).1.proposerBalance.remaining
        = s.proposerBalance.remaining + s.stake_amount ∧
      (resolve_if_complete s).1.ledger = s.ledger ++ [s.stake_amount] ∧
      (resolve_if_complete s).2 = (true, some "completed")) ∧
    (∀ (now : Int) (t : TTState) (voter w : String),
      t.status = "active" → now ≤ t.deadline → t.members.contains voter = true →
      (t.votes.any (fun x => x.user_id == voter)) = false →
      (tt_vote now false t voter w).1.votes = t.votes ++ [⟨voter, w⟩]) := by
  constructor
  · have hany : (s.votes.any (fun v => v.vote == "decline")) = false := by
      rw [List.any_eq_false]
      intro v hv
      simp [hnod v hv]
    unfold resolve_if_complete
    rw [if_neg (not_lt.mpr hfull), if_neg (by simp [hany])]
    exact ⟨rfl, rfl, rfl, rfl⟩
  · intro now t voter w h1 h2 h3 h4
    unfold tt_vote
    rw [if_neg (by simp [h1]), if_neg (not_lt.mpr h2), if_neg (not_not_intro h3),
      if_neg (by simp [h4]), if_neg (by simp)]
    unfold resolve_if_complete
    simp only []
    split
    · rfl
    · split
      · rfl
      · rfl

/-- A concrete full vote set in which the non-proposer votes are arbitrary
strings, neither accept nor decline. -/
def ttActiveFullMixed : TTState :=
  { status := "active",
    stake_amount := 100,
    deadline := 10,
    votes := [⟨"p", "accept"⟩, ⟨"a", "banana"⟩, ⟨"b", "yes please"⟩],
    members := ["p", "a", "b"],
    proposerBalance := { daily_budget := 100, spent_today := 100, remaining := 0, debt := 0 },
    ledger := [-100] }

/-- C10 witness: the mixed-string full vote set still completes the proposal
and refunds the stake. -/
theorem resolve_unanimity_is_absence_of_decline_witness :
    (resolve_if_complete ttActiveFullMixed).1.status = "completed" ∧
    (resolve_if_complete ttActiveFullMixed).1.proposerBalance.remaining = 0 + 100 ∧
    (resolve_if_complete ttActiveFullMixed).1.ledger = [-100] ++ [100] ∧
    (resolve_if_complete ttActiveFullMixed).2 = (true, some "completed") :=
  (resolve_unanimity_is_absence_of_decline ttActiveFullMixed
    (by decide) (by decide)).1

/-- A tip_to_tip_proposals row as the deadline sweep reads it. -/
structure Proposal where
  id : Nat
  status : String
  deadline : Int
  deriving Repr, DecidableEq

/-- db.update on tip_to_tip_proposals filtered on the row id: sets the status
on every matching row and returns the updated rows. -/
def updateStatusById (tbl : List Proposal) (pid : Nat) (st : String) :
    List Proposal × List Proposal :=
  (tbl.map fun p => if p.id = pid then { p with status := st } else p,
   (tbl.filter fun p => p.id == pid).map fun p => { p with status := st })

/-- TipToTipService.expire_overdue: select the active rows with deadline
strictly before now, expire each by id, and collect the first updated row of
each non-empty update result. Returns (table after the sweep, affected rows). -/
def expire_overdue (now : Int) (tbl : List Proposal) :
    List Proposal × List Proposal :=
  let overdue := tbl.filter fun p => p.status == "active" && decide (p.deadline < now)
  overdue.foldl
    (fun acc p =>
      let r := updateStatusById acc.1 p.id "expired"
      (r.1,
       match r.2 with
       | [] => acc.2
       | u :: _ => acc.2 ++ [u]))
    (tbl, [])

theorem expire_fold_fst (L : List Proposal) (tbl aff : List Proposal) :
    (L.foldl
      (fun acc p =>
        let r := updateStatusById acc.1 p.id "expired"
        (r.1,
         match r.2 with
         | [] => acc.2
         | u :: _ => acc.2 ++ [u]))
      (tbl, aff)).1
    = L.foldl (fun t p => (updateStatusById t p.id "expired").1) tbl := by
  induction L generalizing tbl aff with
  | nil => rfl
  | cons q L ih =>
      rw [List.foldl_cons, List.foldl_cons]
      exact ih _ _

theorem expire_fold_table (L : List Proposal) (tbl : List Proposal) :
    L.foldl (fun t p => (updateStatusById t p.id "expired").1) tbl
      = tbl.map (fun p =>
          if p.id ∈ L.map (fun r => r.id) then { p with status := "expired" } else p) := by
  induction L generalizing tbl with
  | nil => simp
  | cons q L ih =>
      rw [List.foldl_cons, ih]
      unfold updateStatusById
      rw [List.map_map]
      congr 1
      funext p
      by_cases hq : p.id = q.id
      · simp [Function.comp, hq]
      · simp [Function.comp, hq]

theorem expire_overdue_of_no_overdue (now : Int) (tbl : List Proposal)
    (h : (tbl.filter fun p => p.status == "active" && decide (p.deadline < now)) = []) :
    expire_overdue now tbl = (tbl, []) := by
  unfold expire_overdue
  rw [h]
  rfl

/-- C8: the deadline sweep leaves no row both active and past its deadline,
and it is idempotent: run again on its own output (no intervening state
change) it expires nothing and returns an empty affected set. -/
theorem expire_overdue_idempotent (now : Int) (tbl : List Proposal) :
    (∀ q ∈ (expire_overdue now tbl).1, ¬ (q.status = "active" ∧ q.deadline < now)) ∧
    expire_overdue now (expire_overdue now tbl).1 = ((expire_overdue now tbl).1, []) := by
  have hform : (expire_overdue now tbl).1 =
      tbl.map (fun p =>
        if p.id ∈ (tbl.filter fun r =>
            r.status == "active" && decide (r.deadline < now)).map (fun r => r.id)
        then { p with status := "expired" } else p) := by
    unfold expire_overdue
    rw [expire_fold_fst, expire_fold_table]
  have hclean : ∀ q ∈ (expire_overdue now tbl).1,
      ¬ (q.status = "active" ∧ q.deadline < now) := by
    rw [hform]
    intro q hq
    obtain ⟨p, hp, hpe⟩ := List.mem_map.mp hq
    by_cases hc : p.id ∈ (tbl.filter fun r =>
        r.status == "active" && decide (r.deadline < now)).map (fun r => r.id)
    · rw [if_pos hc] at hpe
      intro hcontra
      rw [← hpe] at hcontra
      exact absurd hcontra.1 (by simp)
    · rw [if_neg hc] at hpe
      subst hpe
      intro hcontra
      refine hc (List.mem_map.mpr ⟨p, ?_, rfl⟩)
      refine List.mem_filter.mpr ⟨hp, ?_⟩
      simp [hcontra.1, hcontra.2]
  refine ⟨hclean, ?_⟩
  refine expire_overdue_of_no_overdue now _ ?_
  rw [List.filter_eq_nil_iff]
  intro q hq
  have h := hclean q hq
  simp only [Bool.and_eq_true, beq_iff_eq, decide_eq_true_eq, not_and]
  intro h1 h2
  exact h ⟨h1, h2⟩

/-- A concrete table: row 1 is overdue and active, row 2 active but not due,
row 3 already expired. -/
def sweepTable : List Proposal :=
  [⟨1, "active", 5⟩, ⟨2, "active", 50⟩, ⟨3, "expired", 5⟩]

/-- C8 witness: sweeping the concrete table at time 10 leaves no active
overdue row, and re-running the sweep on the swept table returns it unchanged
with an empty affected set. -/
theorem expire_overdue_idempotent_witness :
    (¬ ((⟨1, "expired", 5⟩ : Proposal).status = "active" ∧
        (⟨1, "expired", 5⟩ : Proposal).deadline < 10)) ∧
    expire_overdue 10 (expire_overdue 10 sweepTable).1 =
      ((expire_overdue 10 sweepTable).1, []) := by
  constructor
  · exact (expire_overdue_idempotent 10 sweepTable).1 ⟨1, "expired", 5⟩ (by decide)
  · exact (expire_overdue_idempotent 10 sweepTable).2

/-- The module-level caches of app/services/common.py: insertion-ordered
(key, (expires_at, value)) entries, mirroring Python dict iteration order
(an in-place update keeps the entry's position, a new key appends at the
end). Keys and values are abstracted to naturals; expires_at is the
monotonic-clock instant as an integer. -/
abbrev Cache := List (Nat × Int × Nat)

/-- dict.get(key): the entry for the key, if present. -/
def dictLookup (c : Cache) (k : Nat) : Option (Int × Nat) :=
  (c.find? fun e => e.1 == k).map fun e => e.2

/-- dict.pop(key, None): drop the entry for the key. -/
def dictPop (c : Cache) (k : Nat) : Cache :=
  c.filter fun e => ¬ e.1 == k

/-- dict[key] = value: overwrite in place, or append a fresh key. -/
def dictUpsert (c : Cache) (k : Nat) (v : Int × Nat) : Cache :=
  if c.any fun e => e.1 == k then
    c.map fun e => if e.1 == k then (k, v) else e
  else c ++ [(k, v)]

/-- common._cache_get at monotonic instant now: absent key gives none; an
entry whose expiry has passed (expires_at <= now) is popped and none is
returned; a live entry is returned with the cache untouched. -/
def cache_get (now : Int) (c : Cache) (k : Nat) : Option Nat × Cache :=
  match dictLookup c k with
  | none => (none, c)
  | some (expires_at, value) =>
      if expires_at ≤ now then (none, dictPop c k) else (some value, c)

/-- common._cache_set: a no-op when ttl_seconds <= 0; otherwise, with
capacity max 100 settings.data_cache_max_entries as in the code, evict the
first-inserted entry (next(iter(cache))) whenever the map already holds at
least capacity entries, then insert or overwrite the key with expiry
now + ttl. -/
def cache_set (cfgMaxEntries : Nat) (now : Int) (c : Cache) (k : Nat)
    (value : Nat) (ttl : Int) : Cache :=
  if ttl ≤ 0 then c
  else
    let max_entries := max 100 cfgMaxEntries
    let c1 := if max_entries ≤ c.length then
        match c with
        | [] => []
        | e :: _ => dictPop c e.1
      else c
    dictUpsert c1 k (now + ttl, value)

theorem dictLookup_map_overwrite (c : Cache) (k : Nat) (v : Int × Nat) :
    dictLookup (c.map fun e => if e.1 == k then (k, v) else e) k
      = if (c.any fun e => e.1 == k) then some v else none := by
  induction c with
  | nil => rfl
  | cons e rest ih =>
      by_cases he : (e.1 == k) = true
      · rw [List.map_cons, if_pos he]
        unfold dictLookup
        rw [List.find?_cons_of_pos _ (by simp)]
        simp [he]
      · rw [List.map_cons, if_neg he]
        have he0 : (e.1 == k) = false := by simpa using he
        rw [List.any_cons, he0, Bool.false_or]
        simpa [dictLookup, he0] using ih

theorem dictLookup_append_fresh (c : Cache) (k : Nat) (v : Int × Nat)
    (h : (c.any fun e => e.1 == k) = false) :
    dictLookup (c ++ [(k, v)]) k = some v := by
  induction c with
  | nil => simp [dictLookup]
  | cons e rest ih =>
      have h1 : (e.1 == k) = false := by
        by_contra hne
        have h1' : (e.1 == k) = true := by
          revert hne; cases (e.1 == k) <;> simp
        simp [List.any_cons, h1'] at h
      have h2 : (rest.any fun x => x.1 == k) = false := by
        by_contra hne
        have h2' : (rest.any fun x => x.1 == k) = true := by
          revert hne; cases (rest.any fun x => x.1 == k) <;> simp
        simp [List.any_cons, h2'] at h
      rw [List.cons_append]
      simpa [dictLookup, h1] using ih h2

theorem dictLookup_upsert (c : Cache) (k : Nat) (v : Int × Nat) :
    dictLookup (dictUpsert c k v) k = some v := by
  unfold dictUpsert
  by_cases h : (c.any fun e => e.1 == k) = true
  · rw [if_pos h, dictLookup_map_overwrite, if_pos h]
  · rw [if_neg h]
    refine dictLookup_append_fresh c k v ?_
    cases hb : (c.any fun e => e.1 == k)
    · rfl
    · exact absurd hb h

/-- C9: cache_get returns a value only from an entry whose expiry is still in
the future, and a read of an expired entry evicts it and returns none;
cache_set with non-positive ttl is a no-op, otherwise it inserts or
overwrites the key (a subsequent lookup sees expiry now + ttl), directly when
the map is below the configured capacity and after evicting the
first-inserted entry when the map already holds at least capacity entries. -/
theorem cache_spec (cfg : Nat) (now : Int) (c : Cache) (k : Nat)
    (value : Nat) (ttl : Int) :
    (∀ x, (cache_get now c k).1 = some x →
      ∃ e, dictLookup c k = some e ∧ now < e.1 ∧ e.2 = x) ∧
    (∀ e, dictLookup c k = some e → e.1 ≤ now →
      cache_get now c k = (none, dictPop c k)) ∧
    (ttl ≤ 0 → cache_set cfg now c k value ttl = c) ∧
    (0 < ttl →
      dictLookup (cache_set cfg now c k value ttl) k = some (now + ttl, value)) ∧
    (0 < ttl → c.length < max 100 cfg →
      cache_set cfg now c k value ttl = dictUpsert c k (now + ttl, value)) ∧
    (0 < ttl → max 100 cfg ≤ c.length → ∀ e rest, c = e :: rest →
      cache_set cfg now c k value ttl =
        dictUpsert (dictPop c e.1) k (now + ttl, value)) := by
  refine ⟨?_, ?_, ?_, ?_, ?_, ?_⟩
  · intro x hx
    cases hlk : dictLookup c k with
    | none =>
        simp only [cache_get, hlk] at hx
        exact absurd hx (by simp)
    | some e =>
        obtain ⟨exp, val⟩ := e
        simp only [cache_get, hlk] at hx
        by_cases hexp : exp ≤ now
        · rw [if_pos hexp] at hx
          exact absurd hx (by simp)
        · rw [if_neg hexp] at hx
          refine ⟨(exp, val), rfl, lt_of_not_le hexp, ?_⟩
          simpa using hx
  · intro e hlk hexp
    obtain ⟨exp, val⟩ := e
    simp only [cache_get, hlk]
    rw [if_pos hexp]
  · intro h
    unfold cache_set
    rw [if_pos h]
  · intro h
    unfold cache_set
    rw [if_neg (not_le.mpr h)]
    split
    · exact dictLookup_upsert _ k _
    · exact dictLookup_upsert _ k _
  · intro h hlen
    unfold cache_set
    rw [if_neg (not_le.mpr h)]
    simp only []
    rw [if_neg (not_le.mpr hlen)]
  · intro h hlen e rest hc
    subst hc
    unfold cache_set
    rw [if_neg (not_le.mpr h)]
    simp only []
    rw [if_pos hlen]

/-- C9 witness: on the one-entry cache (key 1, expiry 5, value 7), a read at
instant 9 evicts the expired entry; a set of key 2 with ttl 3 at instant 9 on
the below-capacity cache appends the entry, and a later lookup of key 2 sees
expiry 12. -/
theorem cache_spec_witness :
    cache_get 9 [(1, 5, 7)] 1 = (none, []) ∧
    cache_set 0 9 [(1, 5, 7)] 2 7 3 = [(1, 5, 7), (2, 12, 7)] ∧
    dictLookup (cache_set 0 9 [(1, 5, 7)] 2 7 3) 2 = some (12, 7) := by
  refine ⟨?_, ?_, ?_⟩
  · have h := (cache_spec 0 9 [(1, 5, 7)] 1 7 3).2.1 (5, 7) rfl (by decide)
    simpa using h
  · have h := (cache_spec 0 9 [(1, 5, 7)] 2 7 3).2.2.2.2.1 (by decide) (by decide)
    rw [h]
    rfl
  · exact (cache_spec 0 9 [(1, 5, 7)] 2 7 3).2.2.2.1 (by decide)

/-- One election_votes row as ElectionService.close reads it: the candidate
and the created_at instant. The code compares created_at as ISO-8601 UTC
timestamp strings, whose lexicographic order is the chronological order; the
embedding uses naturals with the same order. -/
structure EVote where
  candidate_id : String
  created_at : Nat
  deriving Repr, DecidableEq

/-- One update step of collections.Counter: increment the existing entry in
place, or append a new key with count 1 (Python dicts keep insertion order). -/
def bump : List (String × Nat) → String → List (String × Nat)
  | [], c => [(c, 1)]
  | (k, n) :: rest, c =>
      if k = c then (k, n + 1) :: rest else (k, n) :: bump rest c

/-- Counter(str(vote.candidate_id) for vote in votes), votes in created_at
order. -/
def counterOf (votes : List EVote) : List (String × Nat) :=
  votes.foldl (fun acc v => bump acc v.candidate_id) []

/-- max(counts.values()); seeded with 0, which close() never observes since
it only tallies a non-empty vote list (all counts are at least 1). -/
def maxVotes (counter : List (String × Nat)) : Nat :=
  (counter.map Prod.snd).foldl max 0

/-- The candidates whose count equals the maximum, in counter order. -/
def tiedOf (counter : List (String × Nat)) (m : Nat) : List String :=
  (counter.filter fun p => p.2 == m).map Prod.fst

/-- One iteration of the first_seen loop of close(): record the candidate's
created_at if the candidate is tied and not yet recorded. -/
def fsStep (tied : List String) (acc : List (String × Nat)) (v : EVote) :
    List (String × Nat) :=
  if tied.contains v.candidate_id && !(acc.any fun p => p.1 == v.candidate_id) then
    acc ++ [(v.candidate_id, v.created_at)]
  else acc

/-- The first_seen dict of close(): scan the votes in created_at order and
record each tied candidate's first created_at once. -/
def firstSeen (votes : List EVote) (tied : List String) : List (String × Nat) :=
  votes.foldl (fsStep tied) []

/-- min(first_seen.items(), key=lambda item: item becomes | its timestamp):
Python's min keeps the earliest-compared element on ties, i.e. the fold keeps
the current best unless a strictly smaller timestamp appears. -/
def minBySnd : List (String × Nat) → Option String
  | [] => none
  | p :: rest =>
      some ((rest.foldl (fun best q => if q.2 < best.2 then q else best) p).1)

/-- The winner computation of ElectionService.close: none on zero votes; the
single candidate at the maximum count when unique; otherwise the tied
candidate whose recorded first vote has the smallest created_at. -/
def closeWinner (votes : List EVote) : Option String :=
  match votes with
  | [] => none
  | _ :: _ =>
      let counter := counterOf votes
      let m := maxVotes counter
      match tiedOf counter m with
      | [t] => some t
      | tied => minBySnd (firstSeen votes tied)

/-- The number of votes cast for a candidate. -/
def voteCount (votes : List EVote) (k : String) : Nat :=
  votes.countP fun v => v.candidate_id == k

/-- The created_at of the first vote cast for a candidate, if any. -/
def firstTime (votes : List EVote) (k : String) : Option Nat :=
  (votes.find? fun v => v.candidate_id == k).map fun v => v.created_at

/-- Count read out of an association list (0 when the key is absent). -/
def valC (l : List (String × Nat)) (k : String) : Nat :=
  ((l.find? fun p => p.1 == k).map Prod.snd).getD 0

/-- Whether the association list has the key. -/
def hasK (l : List (String × Nat)) (k : String) : Bool :=
  l.any fun p => p.1 == k

theorem find?_key_cons_pos {β : Type} {k0 k : String} {n : β} (l : List (String × β))
    (h : (k0 == k) = true) :
    List.find? (fun p => p.1 == k) ((k0, n) :: l) = some (k0, n) :=
  List.find?_cons_of_pos l h

theorem find?_key_cons_neg {β : Type} {k0 k : String} {n : β} (l : List (String × β))
    (h : (k0 == k) = false) :
    List.find? (fun p => p.1 == k) ((k0, n) :: l) = List.find? (fun p => p.1 == k) l :=
  List.find?_cons_of_neg l (by simp [h])

theorem valC_bump_self (l : List (String × Nat)) (c : String) :
    valC (bump l c) c = valC l c + 1 := by
  induction l with
  | nil => simp [bump, valC]
  | cons p rest ih =>
      obtain ⟨k, n⟩ := p
      by_cases hk : k = c
      · subst hk
        simp [bump, valC]
      · have hk' : (k == c) = false := by simpa using hk
        simp only [bump, if_neg hk]
        unfold valC
        rw [List.find?_cons_of_neg _ (by simp [hk']),
          List.find?_cons_of_neg _ (by simp [hk'])]
        exact ih

theorem valC_bump_other (l : List (String × Nat)) (c k : String) (hne : k ≠ c) :
    valC (bump l c) k = valC l k := by
  induction l with
  | nil =>
      have h : (c == k) = false := by
        simp only [beq_eq_false_iff_ne]
        exact fun hh => hne hh.symm
      simp [bump, valC, h]
  | cons p rest ih =>
      obtain ⟨k0, n⟩ := p
      have hb : bump ((k0, n) :: rest) c
          = if k0 = c then (k0, n + 1) :: rest else (k0, n) :: bump rest c := rfl
      rw [hb]
      by_cases hk : k0 = c
      · rw [if_pos hk]
        unfold valC
        by_cases hkk : (k0 == k) = true
        · exfalso
          apply hne
          have hk0k : k0 = k := by simpa using hkk
          rw [← hk0k]
          exact hk
        · have hkk' : (k0 == k) = false := by simpa using hkk
          rw [find?_key_cons_neg rest hkk', find?_key_cons_neg rest hkk']
      · rw [if_neg hk]
        unfold valC
        by_cases hkk : (k0 == k) = true
        · rw [find?_key_cons_pos (bump rest c) hkk, find?_key_cons_pos rest hkk]
        · have hkk' : (k0 == k) = false := by simpa using hkk
          rw [find?_key_cons_neg (bump rest c) hkk', find?_key_cons_neg rest hkk']
          exact ih

theorem hasK_bump_iff (l : List (String × Nat)) (c k : String) :
    hasK (bump l c) k = true ↔ (hasK l k = true ∨ k = c) := by
  induction l with
  | nil =>
      simp only [bump, hasK, List.any_nil, List.any_cons, Bool.or_false,
        beq_iff_eq, Bool.false_eq_true, false_or]
      exact ⟨fun h => h.symm, fun h => h.symm⟩
  | cons p rest ih =>
      obtain ⟨k0, n⟩ := p
      have hb : bump ((k0, n) :: rest) c
          = if k0 = c then (k0, n + 1) :: rest else (k0, n) :: bump rest c := rfl
      rw [hb]
      by_cases hk : k0 = c
      · rw [if_pos hk]
        subst hk
        simp only [hasK, List.any_cons, Bool.or_eq_true, beq_iff_eq]
        constructor
        · intro h; exact Or.inl h
        · rintro (h | h)
          · exact h
          · exact Or.inl h.symm
      · rw [if_neg hk]
        simp only [hasK, List.any_cons, Bool.or_eq_true] at ih ⊢
        rw [ih]
        tauto

theorem keys_bump (l : List (String × Nat)) (c : String) :
    (bump l c).map Prod.fst
      = if hasK l c then l.map Prod.fst else l.map Prod.fst ++ [c] := by
  induction l with
  | nil => simp [bump, hasK]
  | cons p rest ih =>
      obtain ⟨k0, n⟩ := p
      by_cases hk : k0 = c
      · subst hk
        simp [bump, hasK]
      · have hk' : (k0 == c) = false := by simpa using hk
        simp only [bump, if_neg hk, List.map_cons, hasK, List.any_cons, hk',
          Bool.false_or]
        rw [ih]
        unfold hasK
        by_cases h : (rest.any fun p => p.1 == c) = true
        · rw [if_pos h, if_pos h]
        · rw [if_neg (by simpa using h), if_neg (by simpa using h)]
          simp

theorem hasK_iff_mem_keys (l : List (String × Nat)) (k : String) :
    hasK l k = true ↔ k ∈ l.map Prod.fst := by
  unfold hasK
  rw [List.any_eq_true]
  constructor
  · rintro ⟨p, hp, hpk⟩
    exact List.mem_map.mpr ⟨p, hp, by simpa using hpk.symm⟩
  · intro hm
    obtain ⟨p, hp, hpk⟩ := List.mem_map.mp hm
    exact ⟨p, hp, by simp [hpk]⟩

theorem keys_bump_nodup (l : List (String × Nat)) (c : String)
    (h : (l.map Prod.fst).Nodup) : ((bump l c).map Prod.fst).Nodup := by
  rw [keys_bump]
  by_cases hc : hasK l c = true
  · rw [if_pos hc]
    exact h
  · rw [if_neg (by simpa using hc)]
    rw [List.nodup_append]
    refine ⟨h, List.nodup_singleton c, ?_⟩
    intro a ha hb
    simp only [List.mem_singleton] at hb
    subst hb
    exact hc ((hasK_iff_mem_keys l a).mpr ha)

theorem valC_foldl_bump (votes : List EVote) (acc : List (String × Nat)) (k : String) :
    valC (votes.foldl (fun a v => bump a v.candidate_id) acc) k
      = valC acc k + votes.countP (fun v => v.candidate_id == k) := by
  induction votes generalizing acc with
  | nil => simp
  | cons v vs ih =>
      rw [List.foldl_cons, ih, List.countP_cons]
      by_cases hv : v.candidate_id = k
      · have h1 : valC (bump acc v.candidate_id) k = valC acc k + 1 := by
          rw [hv]
          exact valC_bump_self acc k
        rw [h1, if_pos (show (v.candidate_id == k) = true by simp [hv])]
        omega
      · have h1 : valC (bump acc v.candidate_id) k = valC acc k :=
          valC_bump_other acc _ k (fun hh => hv hh.symm)
        rw [h1, if_neg (show ¬ (v.candidate_id == k) = true by simp [hv])]
        omega

theorem hasK_foldl_bump (votes : List EVote) (acc : List (String × Nat)) (k : String) :
    hasK (votes.foldl (fun a v => bump a v.candidate_id) acc) k = true
      ↔ (hasK acc k = true ∨ (votes.any fun v => v.candidate_id == k) = true) := by
  induction votes generalizing acc with
  | nil => simp
  | cons v vs ih =>
      rw [List.foldl_cons, List.any_cons, ih, hasK_bump_iff]
      simp only [Bool.or_eq_true, beq_iff_eq]
      constructor
      · rintro ((h | h) | h)
        · exact Or.inl h
        · exact Or.inr (Or.inl h.symm)
        · exact Or.inr (Or.inr h)
      · rintro (h | (h | h))
        · exact Or.inl (Or.inl h)
        · exact Or.inl (Or.inr h.symm)
        · exact Or.inr h

theorem keys_foldl_bump_nodup (votes : List EVote) (acc : List (String × Nat))
    (h : (acc.map Prod.fst).Nodup) :
    ((votes.foldl (fun a v => bump a v.candidate_id) acc).map Prod.fst).Nodup := by
  induction votes generalizing acc with
  | nil => exact h
  | cons v vs ih =>
      rw [List.foldl_cons]
      exact ih _ (keys_bump_nodup _ _ h)

theorem pair_val_of_mem (l : List (String × Nat)) (p : String × Nat)
    (hnd : (l.map Prod.fst).Nodup) (hp : p ∈ l) : p.2 = valC l p.1 := by
  induction l with
  | nil => cases hp
  | cons q rest ih =>
      obtain ⟨k0, n⟩ := q
      rw [List.map_cons, List.nodup_cons] at hnd
      rcases List.mem_cons.mp hp with h | h
      · subst h
        unfold valC
        rw [find?_key_cons_pos rest (by simp)]
        rfl
      · have hmemk : p.1 ∈ rest.map Prod.fst := List.mem_map.mpr ⟨p, h, rfl⟩
        have hk : (k0 == p.1) = false := by
          simp only [beq_eq_false_iff_ne]
          intro hh
          apply hnd.1
          rw [hh]
          exact hmemk
        unfold valC
        rw [find?_key_cons_neg rest hk]
        exact ih hnd.2 h

theorem filter_keys_singleton (l : List (String × Nat)) (x : String × Nat)
    (P : String × Nat → Bool) (hnd : (l.map Prod.fst).Nodup) (hx : x ∈ l)
    (hPx : P x = true) (honly : ∀ y ∈ l, P y = true → y.1 = x.1) :
    l.filter P = [x] := by
  induction l with
  | nil => cases hx
  | cons q rest ih =>
      rw [List.map_cons, List.nodup_cons] at hnd
      rcases List.mem_cons.mp hx with h | h
      · subst h
        rw [List.filter_cons_of_pos hPx]
        have hrest : rest.filter P = [] := by
          rw [List.filter_eq_nil_iff]
          intro y hy hPy
          apply hnd.1
          rw [← honly y (List.mem_cons_of_mem _ hy) hPy]
          exact List.mem_map.mpr ⟨y, hy, rfl⟩
        rw [hrest]
      · have hq : P q = false := by
          cases hPq : P q
          · rfl
          · exfalso
            apply hnd.1
            have := honly q (List.mem_cons_self q rest) hPq
            rw [this]
            exact List.mem_map.mpr ⟨x, h, rfl⟩
        rw [List.filter_cons_of_neg (by simp [hq])]
        exact ih hnd.2 h (fun y hy hPy => honly y (List.mem_cons_of_mem _ hy) hPy)

theorem le_foldl_max (l : List Nat) (b : Nat) : b ≤ l.foldl max b := by
  induction l generalizing b with
  | nil => exact le_refl b
  | cons x l ih => exact le_trans (le_max_left b x) (ih (max b x))

theorem mem_le_foldl_max (l : List Nat) (b a : Nat) (ha : a ∈ l) :
    a ≤ l.foldl max b := by
  induction l generalizing b with
  | nil => cases ha
  | cons x l ih =>
      rcases List.mem_cons.mp ha with h | h
      · subst h
        exact le_trans (le_max_right b a) (le_foldl_max l _)
      · exact ih _ h

theorem foldl_max_le (l : List Nat) (b m : Nat) (hb : b ≤ m) (h : ∀ a ∈ l, a ≤ m) :
    l.foldl max b ≤ m := by
  induction l generalizing b with
  | nil => exact hb
  | cons x l ih =>
      exact ih _ (max_le hb (h x (List.mem_cons_self x l)))
        (fun a ha => h a (List.mem_cons_of_mem _ ha))

theorem counterOf_valC (votes : List EVote) (k : String) :
    valC (counterOf votes) k = voteCount votes k := by
  have h := valC_foldl_bump votes [] k
  simpa [counterOf, voteCount, valC] using h

theorem counterOf_hasK (votes : List EVote) (k : String) :
    hasK (counterOf votes) k = true
      ↔ (votes.any fun v => v.candidate_id == k) = true := by
  have h := hasK_foldl_bump votes [] k
  rw [counterOf, h]
  simp [hasK]

theorem counterOf_keys_nodup (votes : List EVote) :
    ((counterOf votes).map Prod.fst).Nodup :=
  keys_foldl_bump_nodup votes [] (by simp)

theorem maxVotes_counterOf (votes : List EVote) (c : String)
    (hc : (votes.any fun v => v.candidate_id == c) = true)
    (hmax : ∀ d, (votes.any fun v => v.candidate_id == d) = true →
      voteCount votes d ≤ voteCount votes c) :
    maxVotes (counterOf votes) = voteCount votes c := by
  apply le_antisymm
  · apply foldl_max_le _ 0 _ (Nat.zero_le _)
    intro a ha
    obtain ⟨p, hp, hpa⟩ := List.mem_map.mp ha
    have h1 : p.2 = voteCount votes p.1 := by
      rw [pair_val_of_mem _ p (counterOf_keys_nodup votes) hp, counterOf_valC]
    have h2 : (votes.any fun v => v.candidate_id == p.1) = true := by
      refine (counterOf_hasK votes p.1).mp ?_
      exact (hasK_iff_mem_keys _ _).mpr (List.mem_map.mpr ⟨p, hp, rfl⟩)
    rw [← hpa, h1]
    exact hmax p.1 h2
  · have hk : c ∈ (counterOf votes).map Prod.fst :=
      (hasK_iff_mem_keys _ _).mp ((counterOf_hasK votes c).mpr hc)
    obtain ⟨p, hp, hpk⟩ := List.mem_map.mp hk
    have h1 : p.2 = voteCount votes c := by
      rw [pair_val_of_mem _ p (counterOf_keys_nodup votes) hp, hpk, counterOf_valC]
    have h2 : voteCount votes c ∈ (counterOf votes).map Prod.snd := by
      rw [← h1]
      exact List.mem_map.mpr ⟨p, hp, rfl⟩
    exact mem_le_foldl_max _ 0 _ h2

theorem mem_tiedOf (votes : List EVote) (m : Nat) (k : String) :
    k ∈ tiedOf (counterOf votes) m
      ↔ ((votes.any fun v => v.candidate_id == k) = true ∧ voteCount votes k = m) := by
  unfold tiedOf
  constructor
  · intro h
    obtain ⟨p, hp, hpk⟩ := List.mem_map.mp h
    have hpf := List.mem_filter.mp hp
    have h1 : p.1 ∈ (counterOf votes).map Prod.fst :=
      List.mem_map.mpr ⟨p, hpf.1, rfl⟩
    have h2 : p.2 = valC (counterOf votes) p.1 :=
      pair_val_of_mem _ p (counterOf_keys_nodup votes) hpf.1
    subst hpk
    refine ⟨(counterOf_hasK votes _).mp ((hasK_iff_mem_keys _ _).mpr h1), ?_⟩
    rw [← counterOf_valC votes p.1, ← h2]
    simpa using hpf.2
  · rintro ⟨hany, hcount⟩
    have hk : k ∈ (counterOf votes).map Prod.fst :=
      (hasK_iff_mem_keys _ _).mp ((counterOf_hasK votes k).mpr hany)
    obtain ⟨p, hp, hpk⟩ := List.mem_map.mp hk
    refine List.mem_map.mpr ⟨p, List.mem_filter.mpr ⟨hp, ?_⟩, hpk⟩
    have h2 : p.2 = valC (counterOf votes) p.1 :=
      pair_val_of_mem _ p (counterOf_keys_nodup votes) hp
    have h3 : p.2 = m := by
      rw [h2, hpk, counterOf_valC, hcount]
    simp [h3]

theorem tiedOf_strict_max (votes : List EVote) (c : String)
    (hc : (votes.any fun v => v.candidate_id == c) = true)
    (hmax : ∀ d, d ≠ c → (votes.any fun v => v.candidate_id == d) = true →
      voteCount votes d < voteCount votes c) :
    tiedOf (counterOf votes) (voteCount votes c) = [c] := by
  have hk : c ∈ (counterOf votes).map Prod.fst :=
    (hasK_iff_mem_keys _ _).mp ((counterOf_hasK votes c).mpr hc)
  obtain ⟨p, hp, hpk⟩ := List.mem_map.mp hk
  have hval : p.2 = voteCount votes c := by
    rw [pair_val_of_mem _ p (counterOf_keys_nodup votes) hp, hpk, counterOf_valC]
  have hfilter : (counterOf votes).filter (fun q => q.2 == voteCount votes c) = [p] := by
    apply filter_keys_singleton _ p _ (counterOf_keys_nodup votes) hp (by simp [hval])
    intro y hy hyP
    have hyval : y.2 = voteCount votes y.1 := by
      rw [pair_val_of_mem _ y (counterOf_keys_nodup votes) hy, counterOf_valC]
    by_contra hne
    have hne' : y.1 ≠ c := by
      intro hh
      apply hne
      rw [hh, hpk]
    have hyany : (votes.any fun v => v.candidate_id == y.1) = true :=
      (counterOf_hasK votes y.1).mp
        ((hasK_iff_mem_keys _ _).mpr (List.mem_map.mpr ⟨y, hy, rfl⟩))
    have hlt := hmax y.1 hne' hyany
    have hym : y.2 = voteCount votes c := by simpa using hyP
    rw [hyval] at hym
    omega
  unfold tiedOf
  rw [hfilter, List.map_singleton, hpk]

theorem closeWinner_of_strict_max (votes : List EVote) (c : String)
    (hc : (votes.any fun v => v.candidate_id == c) = true)
    (hmax : ∀ d, d ≠ c → (votes.any fun v => v.candidate_id == d) = true →
      voteCount votes d < voteCount votes c) :
    closeWinner votes = some c := by
  cases votes with
  | nil => simp at hc
  | cons v vs =>
      have hm : maxVotes (counterOf (v :: vs)) = voteCount (v :: vs) c :=
        maxVotes_counterOf _ c hc (fun d hd => by
          by_cases hdc : d = c
          · subst hdc; exact le_refl _
          · exact le_of_lt (hmax d hdc hd))
      unfold closeWinner
      simp only []
      rw [hm, tiedOf_strict_max _ c hc hmax]

/-- Lookup in a first_seen association list. -/
def fsLookup (l : List (String × Nat)) (k : String) : Option Nat :=
  (l.find? fun p => p.1 == k).map Prod.snd

theorem find?_vote_cons_pos {k : String} (v : EVote) (l : List EVote)
    (h : (v.candidate_id == k) = true) :
    List.find? (fun w => w.candidate_id == k) (v :: l) = some v :=
  List.find?_cons_of_pos l h

theorem find?_vote_cons_neg {k : String} (v : EVote) (l : List EVote)
    (h : (v.candidate_id == k) = false) :
    List.find? (fun w => w.candidate_id == k) (v :: l)
      = List.find? (fun w => w.candidate_id == k) l :=
  List.find?_cons_of_neg l (by simp [h])

theorem firstTime_cons_self (v : EVote) (vs : List EVote) (k : String)
    (h : v.candidate_id = k) : firstTime (v :: vs) k = some v.created_at := by
  unfold firstTime
  rw [find?_vote_cons_pos v vs (by simp [h])]
  rfl

theorem firstTime_cons_other (v : EVote) (vs : List EVote) (k : String)
    (h : v.candidate_id ≠ k) : firstTime (v :: vs) k = firstTime vs k := by
  unfold firstTime
  rw [find?_vote_cons_neg v vs (by simpa using h)]

theorem fsLookup_append_single (acc : List (String × Nat)) (c0 : String)
    (t0 : Nat) (k : String) :
    fsLookup (acc ++ [(c0, t0)]) k
      = match fsLookup acc k with
        | some t => some t
        | none => if k = c0 then some t0 else none := by
  induction acc with
  | nil =>
      by_cases h : k = c0
      · subst h
        rw [List.nil_append, fsLookup, find?_key_cons_pos [] (by simp)]
        simp [fsLookup]
      · have h' : (c0 == k) = false := by
          simp only [beq_eq_false_iff_ne]
          exact fun hh => h hh.symm
        rw [List.nil_append, fsLookup, find?_key_cons_neg [] h']
        simp [fsLookup, h]
  | cons q rest ih =>
      obtain ⟨k0, n⟩ := q
      by_cases h : (k0 == k) = true
      · rw [List.cons_append, fsLookup, find?_key_cons_pos _ h,
          fsLookup, find?_key_cons_pos rest h]
        rfl
      · have h' : (k0 == k) = false := by
          cases hb : (k0 == k)
          · rfl
          · exact absurd hb h
        rw [List.cons_append, fsLookup, find?_key_cons_neg _ h',
          fsLookup, find?_key_cons_neg rest h']
        exact ih

theorem fsLookup_eq_none_iff (l : List (String × Nat)) (k : String) :
    fsLookup l k = none ↔ (l.any fun p => p.1 == k) = false := by
  unfold fsLookup
  constructor
  · intro h
    have hf : l.find? (fun p => p.1 == k) = none := by
      cases hfind : l.find? (fun p => p.1 == k)
      · rfl
      · rw [hfind] at h
        simp at h
    rw [List.find?_eq_none] at hf
    rw [List.any_eq_false]
    exact hf
  · intro h
    have hf : l.find? (fun p => p.1 == k) = none := by
      rw [List.find?_eq_none]
      rw [List.any_eq_false] at h
      exact h
    rw [hf]
    rfl

theorem mem_of_fsLookup (l : List (String × Nat)) (k : String) (t : Nat)
    (h : fsLookup l k = some t) : (k, t) ∈ l := by
  unfold fsLookup at h
  cases hfind : l.find? (fun p => p.1 == k) with
  | none =>
      rw [hfind] at h
      simp at h
  | some p =>
      rw [hfind] at h
      have hmem := List.mem_of_find?_eq_some hfind
      have hpred := List.find?_some hfind
      have hk : p.1 = k := by simpa using hpred
      have ht : p.2 = t := by simpa using h
      have hpe : p = (k, t) := by
        obtain ⟨a, b⟩ := p
        simp only at hk ht
        rw [hk, ht]
      rw [← hpe]
      exact hmem

theorem fsLookup_of_mem (l : List (String × Nat)) (q : String × Nat)
    (hnd : (l.map Prod.fst).Nodup) (hq : q ∈ l) : fsLookup l q.1 = some q.2 := by
  induction l with
  | nil => cases hq
  | cons p rest ih =>
      obtain ⟨k0, n⟩ := p
      rw [List.map_cons, List.nodup_cons] at hnd
      rcases List.mem_cons.mp hq with h | h
      · subst h
        unfold fsLookup
        rw [find?_key_cons_pos rest (by simp)]
        rfl
      · have hmemk : q.1 ∈ rest.map Prod.fst := List.mem_map.mpr ⟨q, h, rfl⟩
        have hk : (k0 == q.1) = false := by
          simp only [beq_eq_false_iff_ne]
          intro hh
          apply hnd.1
          rw [hh]
          exact hmemk
        unfold fsLookup
        rw [find?_key_cons_neg rest hk]
        exact ih hnd.2 h

theorem fsLookup_foldl (tied : List String) (votes : List EVote)
    (acc : List (String × Nat)) (k : String) :
    fsLookup (votes.foldl (fsStep tied) acc) k
      = match fsLookup acc k with
        | some t => some t
        | none => if tied.contains k = true then firstTime votes k else none := by
  induction votes generalizing acc with
  | nil =>
      cases hlk : fsLookup acc k with
      | none =>
          rw [List.foldl_nil, hlk]
          simp [firstTime]
      | some t =>
          rw [List.foldl_nil, hlk]
  | cons v vs ih =>
      rw [List.foldl_cons, ih]
      by_cases hstep :
          (tied.contains v.candidate_id && !(acc.any fun p => p.1 == v.candidate_id)) = true
      · have hcond := Bool.and_eq_true_iff.mp hstep
        have hstepeq : fsStep tied acc v = acc ++ [(v.candidate_id, v.created_at)] := by
          unfold fsStep
          rw [if_pos hstep]
        rw [hstepeq, fsLookup_append_single]
        cases hlk : fsLookup acc k with
        | some t => rfl
        | none =>
            by_cases hvk : k = v.candidate_id
            · subst hvk
              rw [if_pos rfl, firstTime_cons_self v vs _ rfl]
              have hmem : v.candidate_id ∈ tied := by simpa using hcond.1
              simp [hmem]
            · rw [if_neg hvk]
              by_cases htied : tied.contains k = true
              · rw [if_pos htied, if_pos htied,
                  firstTime_cons_other v vs k (fun hh => hvk hh.symm)]
              · rw [if_neg htied, if_neg htied]
      · have hstepeq : fsStep tied acc v = acc := by
          unfold fsStep
          rw [if_neg hstep]
        rw [hstepeq]
        cases hlk : fsLookup acc k with
        | some t => rfl
        | none =>
            by_cases htied : tied.contains k = true
            · rw [if_pos htied, if_pos htied]
              by_cases hvk : v.candidate_id = k
              · exfalso
                have hanyk : (acc.any fun p => p.1 == k) = false :=
                  (fsLookup_eq_none_iff acc k).mp hlk
                apply hstep
                rw [Bool.and_eq_true]
                refine ⟨by rw [hvk]; exact htied, ?_⟩
                rw [hvk, hanyk]
                rfl
              · rw [firstTime_cons_other v vs k hvk]
            · rw [if_neg htied, if_neg htied]

theorem firstSeen_keys_nodup_aux (tied : List String) (votes : List EVote)
    (acc : List (String × Nat)) (h : (acc.map Prod.fst).Nodup) :
    ((votes.foldl (fsStep tied) acc).map Prod.fst).Nodup := by
  induction votes generalizing acc with
  | nil => exact h
  | cons v vs ih =>
      rw [List.foldl_cons]
      apply ih
      unfold fsStep
      by_cases hstep :
          (tied.contains v.candidate_id && !(acc.any fun p => p.1 == v.candidate_id)) = true
      · rw [if_pos hstep, List.map_append, List.nodup_append]
        refine ⟨h, by simp, ?_⟩
        intro a ha hb
        simp only [List.map_cons, List.map_nil, List.mem_singleton] at hb
        subst hb
        have hany : (acc.any fun p => p.1 == v.candidate_id) = false := by
          have h2 := (Bool.and_eq_true_iff.mp hstep).2
          cases hval : (acc.any fun p => p.1 == v.candidate_id)
          · rfl
          · rw [hval] at h2
            simp at h2
        obtain ⟨p, hp, hpk⟩ := List.mem_map.mp ha
        have : (acc.any fun p => p.1 == v.candidate_id) = true :=
          List.any_eq_true.mpr ⟨p, hp, by simp [hpk]⟩
        rw [this] at hany
        exact absurd hany (by simp)
      · rw [if_neg hstep]
        exact h

theorem foldl_minBy_mem (rest : List (String × Nat)) (x : String × Nat) :
    rest.foldl (fun best q => if q.2 < best.2 then q else best) x ∈ x :: rest := by
  induction rest generalizing x with
  | nil => exact List.mem_singleton.mpr rfl
  | cons y l ih =>
      rw [List.foldl_cons]
      by_cases hy : y.2 < x.2
      · rw [if_pos hy]
        rcases List.mem_cons.mp (ih y) with h1 | h1
        · rw [h1]
          exact List.mem_cons_of_mem _ (List.mem_cons_self _ _)
        · exact List.mem_cons_of_mem _ (List.mem_cons_of_mem _ h1)
      · rw [if_neg hy]
        rcases List.mem_cons.mp (ih x) with h1 | h1
        · rw [h1]
          exact List.mem_cons_self _ _
        · exact List.mem_cons_of_mem _ (List.mem_cons_of_mem _ h1)

theorem foldl_minBy_le (rest : List (String × Nat)) (x : String × Nat) :
    ∀ q ∈ x :: rest,
      (rest.foldl (fun best q => if q.2 < best.2 then q else best) x).2 ≤ q.2 := by
  induction rest generalizing x with
  | nil =>
      intro q hq
      rcases List.mem_cons.mp hq with h | h
      · rw [h]
        exact le_refl _
      · cases h
  | cons y l ih =>
      intro q hq
      rw [List.foldl_cons]
      have hzle : (if y.2 < x.2 then y else x).2 ≤ x.2 ∧
          (if y.2 < x.2 then y else x).2 ≤ y.2 := by
        by_cases hy : y.2 < x.2
        · rw [if_pos hy]
          exact ⟨le_of_lt hy, le_refl _⟩
        · rw [if_neg hy]
          exact ⟨le_refl _, le_of_not_lt hy⟩
      have hres := ih (if y.2 < x.2 then y else x)
      have hres_le : (l.foldl (fun best q => if q.2 < best.2 then q else best)
          (if y.2 < x.2 then y else x)).2 ≤ (if y.2 < x.2 then y else x).2 :=
        hres _ (List.mem_cons_self _ _)
      rcases List.mem_cons.mp hq with h | h
      · rw [h]
        exact le_trans hres_le hzle.1
      · rcases List.mem_cons.mp h with h2 | h2
        · rw [h2]
          exact le_trans hres_le hzle.2
        · exact hres q (List.mem_cons_of_mem _ h2)

theorem minBySnd_eq_of_unique_min (l : List (String × Nat)) (p : String × Nat)
    (hp : p ∈ l) (hmin : ∀ q ∈ l, q.1 ≠ p.1 → p.2 < q.2) :
    minBySnd l = some p.1 := by
  cases l with
  | nil => cases hp
  | cons x rest =>
      have hrmem := foldl_minBy_mem rest x
      have hrle := foldl_minBy_le rest x p hp
      by_cases hrp :
          (rest.foldl (fun best q => if q.2 < best.2 then q else best) x).1 = p.1
      · unfold minBySnd
        show some ((rest.foldl (fun best q => if q.2 < best.2 then q else best) x).1)
          = some p.1
        rw [hrp]
      · exfalso
        have := hmin _ hrmem hrp
        omega

theorem firstTime_isSome_of_any (votes : List EVote) (k : String)
    (h : (votes.any fun v => v.candidate_id == k) = true) :
    ∃ t, firstTime votes k = some t := by
  unfold firstTime
  cases hfind : votes.find? (fun w => w.candidate_id == k) with
  | none =>
      rw [List.find?_eq_none] at hfind
      rw [List.any_eq_true] at h
      obtain ⟨w, hw, hwc⟩ := h
      exact absurd hwc (hfind w hw)
  | some w =>
      exact ⟨w.created_at, rfl⟩

theorem closeWinner_tie_break (votes : List EVote) (c d0 : String)
    (hc : (votes.any fun v => v.candidate_id == c) = true)
    (hmax : ∀ d, (votes.any fun v => v.candidate_id == d) = true →
      voteCount votes d ≤ voteCount votes c)
    (hd0 : d0 ≠ c)
    (hd0any : (votes.any fun v => v.candidate_id == d0) = true)
    (hd0cnt : voteCount votes d0 = voteCount votes c)
    (hearliest : ∀ d, d ≠ c → (votes.any fun v => v.candidate_id == d) = true →
      voteCount votes d = voteCount votes c →
      ∀ tc td, firstTime votes c = some tc → firstTime votes d = some td →
        tc < td) :
    closeWinner votes = some c := by
  cases votes with
  | nil => simp at hc
  | cons v vs =>
      have hm : maxVotes (counterOf (v :: vs)) = voteCount (v :: vs) c :=
        maxVotes_counterOf _ c hc hmax
      have hcmem : c ∈ tiedOf (counterOf (v :: vs)) (voteCount (v :: vs) c) :=
        (mem_tiedOf _ _ _).mpr ⟨hc, rfl⟩
      have hdmem : d0 ∈ tiedOf (counterOf (v :: vs)) (voteCount (v :: vs) c) :=
        (mem_tiedOf _ _ _).mpr ⟨hd0any, hd0cnt⟩
      obtain ⟨tc, htc⟩ := firstTime_isSome_of_any (v :: vs) c hc
      unfold closeWinner
      simp only []
      rw [hm]
      cases htl : tiedOf (counterOf (v :: vs)) (voteCount (v :: vs) c) with
      | nil =>
          rw [htl] at hcmem
          cases hcmem
      | cons t tl =>
          cases tl with
          | nil =>
              rw [htl] at hcmem hdmem
              have h1 : c = t := List.mem_singleton.mp hcmem
              have h2 : d0 = t := List.mem_singleton.mp hdmem
              exact absurd (h2.trans h1.symm) hd0
          | cons t2 tl2 =>
              rw [htl] at hcmem hdmem
              show minBySnd (firstSeen (v :: vs) (t :: t2 :: tl2)) = some c
              have hnodup :
                  ((firstSeen (v :: vs) (t :: t2 :: tl2)).map Prod.fst).Nodup :=
                firstSeen_keys_nodup_aux _ _ [] (by simp)
              have hcont : (t :: t2 :: tl2).contains c = true := by
                simpa using hcmem
              have hlkc :
                  fsLookup (firstSeen (v :: vs) (t :: t2 :: tl2)) c = some tc := by
                unfold firstSeen
                rw [fsLookup_foldl]
                show (if (t :: t2 :: tl2).contains c = true
                    then firstTime (v :: vs) c else none) = some tc
                rw [if_pos hcont, htc]
              have hmemc : (c, tc) ∈ firstSeen (v :: vs) (t :: t2 :: tl2) :=
                mem_of_fsLookup _ _ _ hlkc
              have hgt : ∀ q ∈ firstSeen (v :: vs) (t :: t2 :: tl2),
                  q.1 ≠ c → tc < q.2 := by
                intro q hq hqc
                have hlkq :
                    fsLookup (firstSeen (v :: vs) (t :: t2 :: tl2)) q.1 = some q.2 :=
                  fsLookup_of_mem _ q hnodup hq
                rw [firstSeen, fsLookup_foldl] at hlkq
                have hlkq' : (if (t :: t2 :: tl2).contains q.1 = true
                    then firstTime (v :: vs) q.1 else none) = some q.2 := hlkq
                by_cases hqt : (t :: t2 :: tl2).contains q.1 = true
                · rw [if_pos hqt] at hlkq'
                  have hqmem :
                      q.1 ∈ tiedOf (counterOf (v :: vs)) (voteCount (v :: vs) c) := by
                    rw [htl]
                    simpa using hqt
                  have hqchar := (mem_tiedOf _ _ _).mp hqmem
                  exact hearliest q.1 hqc hqchar.1 hqchar.2 tc q.2 htc hlkq'
                · rw [if_neg hqt] at hlkq'
                  cases hlkq'
              exact minBySnd_eq_of_unique_min _ (c, tc) hmemc hgt

/-- C7: the winner computation of close returns none on zero votes, returns
the candidate holding the strict maximum vote count when it is unique,
resolves a tie at the maximum to the tied candidate whose first vote was cast
earliest, and in particular elects A on the 2-2 tie where A's first vote
precedes B's. -/
theorem closeWinner_spec :
    closeWinner [] = none ∧
    (∀ (votes : List EVote) (c : String),
      (votes.any fun v => v.candidate_id == c) = true →
      (∀ d, d ≠ c → (votes.any fun v => v.candidate_id == d) = true →
        voteCount votes d < voteCount votes c) →
      closeWinner votes = some c) ∧
    (∀ (votes : List EVote) (c d0 : String),
      (votes.any fun v => v.candidate_id == c) = true →
      (∀ d, (votes.any fun v => v.candidate_id == d) = true →
        voteCount votes d ≤ voteCount votes c) →
      d0 ≠ c →
      (votes.any fun v => v.candidate_id == d0) = true →
      voteCount votes d0 = voteCount votes c →
      (∀ d, d ≠ c → (votes.any fun v => v.candidate_id == d) = true →
        voteCount votes d = voteCount votes c →
        ∀ tc td, firstTime votes c = some tc → firstTime votes d = some td →
          tc < td) →
      closeWinner votes = some c) ∧
    closeWinner [⟨"A", 1⟩, ⟨"B", 2⟩, ⟨"A", 3⟩, ⟨"B", 4⟩] = some "A" := by
  refine ⟨rfl, closeWinner_of_strict_max, closeWinner_tie_break, ?_⟩
  rfl

/-- C7 witness: in a concrete election with two votes for X and one for Y, X
is the strict-maximum winner. -/
theorem closeWinner_spec_witness :
    closeWinner [⟨"X", 0⟩, ⟨"X", 1⟩, ⟨"Y", 2⟩] = some "X" := by
  apply closeWinner_spec.2.1
  · rfl
  · intro d hd hany
    rw [List.any_eq_true] at hany
    obtain ⟨w, hw, hwc⟩ := hany
    have hdw : w.candidate_id = d := by simpa using hwc
    simp only [List.mem_cons, List.not_mem_nil, or_false] at hw
    rcases hw with h | h | h
    · exfalso
      apply hd
      rw [← hdw, h]
    · exfalso
      apply hd
      rw [← hdw, h]
    · have hdY : d = "Y" := by
        rw [← hdw, h]
      subst hdY
      decide

end Chas

